import Mathlib

/-!
Verification of the sparse named-tuple record type (`sparsenamedtuple.py`).

The source defines, for a fixed ordered schema of field names, an immutable
record represented as a raw tuple `values ++ [positions]`: the non-None values
supplied at construction, in supply order, followed by one trailing tuple
holding the schema positions those values occupy.  We embed the schema, the
record representation, construction (`_make`), positional access
(`__getitem__`), the dictionary and dense views (`_asdict`, `_asnamedtuple`),
equality (`__eq__`), functional replace (`_replace`), and the field-name
validation performed by the `sparsenamedtuple` factory function.
-/

set_option autoImplicit false

/-- Universe of Python runtime values used by the program: the no-value
sentinel `None`, strings, integers, and the trailing tuple of integer
positions that `_make` appends to the raw storage. -/
inductive PyVal where
  | none : PyVal
  | str : String → PyVal
  | int : Int → PyVal
  | tup : List Int → PyVal
deriving DecidableEq

/-- A schema: the ordered field-name list `_fields` fixed when the class is
fabricated by `sparsenamedtuple`. -/
structure Schema where
  fieldNames : List String
deriving DecidableEq

/-- `_nfields = len(_fields)`. -/
def Schema.nfields (s : Schema) : Nat := s.fieldNames.length

/-- Error taxonomy of the spec.  `validationError` is the ValueError raised at
schema-definition time, `unknownField` the ValueError raised by
`_fields.index` on a missing name, `indexOutOfRange` the IndexError of
positional access, and `duplicateField` the spec's DuplicateFieldError. -/
inductive Err where
  | validationError : Err
  | unknownField : Err
  | duplicateField : Err
  | indexOutOfRange : Err
deriving DecidableEq

/-- The compact record: the raw tuple built by `_make` is
`values ++ [tup positions]`; we keep the two components apart. -/
structure SparseRecord where
  values : List PyVal
  positions : List Nat
deriving DecidableEq

/-- Python's `list.index` / `tuple.index`: position of the first occurrence,
`none` when absent (where the source raises ValueError). -/
def idxOf? {α : Type} [DecidableEq α] (a : α) : List α → Option Nat
  | [] => Option.none
  | b :: l => if b = a then some 0 else (idxOf? a l).map (fun m => m + 1)

/-- The loop body of `_make`: iterate the keyword assignments in order; for
each pair whose value is not `None`, resolve the name via `_fields.index`
(ValueError = `unknownField` when absent) and append the value and the
resolved position to the parallel accumulators. -/
def makeLoop (s : Schema) : List (String × PyVal) → Except Err (List PyVal × List Nat)
  | [] => .ok ([], [])
  | (key, value) :: rest =>
    if value ≠ PyVal.none then
      match idxOf? key s.fieldNames with
      | Option.none => .error .unknownField
      | some i =>
        match makeLoop s rest with
        | .error e => .error e
        | .ok (vs, ps) => .ok (value :: vs, i :: ps)
    else makeLoop s rest

/-- `_make`: build the record from keyword assignments.  The raw tuple it
returns is `values + [tuple(indexes)]`; we store the two parts in the
`SparseRecord` structure. -/
def _make (s : Schema) (kwargs : List (String × PyVal)) : Except Err SparseRecord :=
  match makeLoop s kwargs with
  | .error e => .error e
  | .ok (vs, ps) => .ok ⟨vs, ps⟩

/-- The raw underlying tuple of the record, exactly as `tuple.__new__` builds
it: the present values followed by the single trailing positions tuple.  This
is the spec's `toCompactSequence`. -/
def rawTuple (r : SparseRecord) : List PyVal :=
  r.values ++ [PyVal.tup (r.positions.map Int.ofNat)]

/-- The try/except body of `__getitem__` after index normalization:
`pos = tuple.__getitem__(self, -1).index(n)` (the trailing element of the raw
tuple is the positions tuple), returning `None` on ValueError, else
`tuple.__getitem__(self, pos)` (IndexError = `indexOutOfRange` if the slot is
outside the raw tuple, which cannot happen on well-formed records). -/
def lookupRaw (r : SparseRecord) (n : Int) : Except Err PyVal :=
  match idxOf? n (r.positions.map Int.ofNat) with
  | Option.none => .ok PyVal.none
  | some i =>
    match (rawTuple r)[i]? with
    | some v => .ok v
    | Option.none => .error .indexOutOfRange

/-- `__getitem__(self, n)`: a negative `n` is replaced by `_nfields + n`
without any further range check; a nonnegative `n ≥ _nfields` raises
IndexError; otherwise the positions tuple is scanned for `n`. -/
def getItem (s : Schema) (r : SparseRecord) (n : Int) : Except Err PyVal :=
  if n < 0 then lookupRaw r ((s.nfields : Int) + n)
  else if (s.nfields : Int) ≤ n then .error .indexOutOfRange
  else lookupRaw r n

/-- Sequential effectful map over a list, mirroring Python's evaluation of a
generator expression inside `tuple(...)` / `OrderedDict(...)`: the first
raised error propagates. -/
def traverseE {β : Type} (f : Nat → Except Err β) : List Nat → Except Err (List β)
  | [] => .ok []
  | x :: rest =>
    match f x with
    | .error e => .error e
    | .ok v =>
      match traverseE f rest with
      | .error e => .error e
      | .ok vs => .ok (v :: vs)

/-- `_asnamedtuple`: `tuple(self[x] for x in range(self._nfields))`, the dense
full sequence in schema order.  This is the spec's `asFullSequence`. -/
def _asnamedtuple (s : Schema) (r : SparseRecord) : Except Err (List PyVal) :=
  traverseE (fun x => getItem s r (x : Int)) (List.range s.nfields)

/-- `_asdict`: `OrderedDict((self._fields[x], self[x]) for x in range(self._nfields))`,
the ordered name-to-value mapping in schema order. -/
def _asdict (s : Schema) (r : SparseRecord) : Except Err (List (String × PyVal)) :=
  traverseE
    (fun x =>
      match getItem s r (x : Int) with
      | .error e => .error e
      | .ok v => .ok (s.fieldNames.getD x "", v))
    (List.range s.nfields)

/-- `__eq__(self, other)` with a plain dense sequence on the right:
`self._asnamedtuple() == other`, a structural tuple comparison. -/
def recordEqDense (s : Schema) (r : SparseRecord) (other : List PyVal) : Except Err Bool :=
  match _asnamedtuple s r with
  | .error e => .error e
  | .ok t => .ok (decide (t = other))

/-- `__eq__` with another sparse record on the right: Python's reflected
dispatch (the right operand's type is a tuple subclass overriding `__eq__`)
reduces `self._asnamedtuple() == other` to a comparison of the two dense full
sequences. -/
def recordEqSparse (s : Schema) (r : SparseRecord) (s2 : Schema) (r2 : SparseRecord) :
    Except Err Bool :=
  match _asnamedtuple s r with
  | .error e => .error e
  | .ok t =>
    match _asnamedtuple s2 r2 with
    | .error e => .error e
    | .ok t2 => .ok (decide (t = t2))

/-- The dense type's own equality operator applied with the dense sequence on
the left (e.g. a plain namedtuple compared against a sparse record):
`tuple.__eq__` compares the dense tuple against the record's raw tuple. -/
def denseEqRecord (dense : List PyVal) (r : SparseRecord) : Bool :=
  decide (dense = rawTuple r)

/-- Named access: each generated field property is
`property(itemgetter(index))` with `index` the field's schema position, so it
invokes the overridden `__getitem__` at that position. -/
def getField (s : Schema) (r : SparseRecord) (name : String) : Except Err PyVal :=
  match idxOf? name s.fieldNames with
  | some i => getItem s r (i : Int)
  | Option.none => .error .unknownField

/-- `OrderedDict.__setitem__` semantics for one key of `vars.update(kwargs)`:
an existing key keeps its slot and gets the new value; a new key is appended
at the end. -/
def updAssoc (vars : List (String × PyVal)) (key : String) (value : PyVal) :
    List (String × PyVal) :=
  if vars.any (fun q => q.1 = key) then
    vars.map (fun q => if q.1 = key then (key, value) else q)
  else vars ++ [(key, value)]

/-- `vars.update(kwargs)`: apply each keyword override in turn. -/
def updateAll (vars : List (String × PyVal)) (kwargs : List (String × PyVal)) :
    List (String × PyVal) :=
  kwargs.foldl (fun acc q => updAssoc acc q.1 q.2) vars

/-- `_replace`: take `_asdict()`, apply the keyword overrides, and rebuild via
`_make`. -/
def _replace (s : Schema) (r : SparseRecord) (kwargs : List (String × PyVal)) :
    Except Err SparseRecord :=
  match _asdict s r with
  | .error e => .error e
  | .ok vars => _make s (updateAll vars kwargs)

/-- The keys of a keyword-assignment list. -/
def keysOf (kwargs : List (String × PyVal)) : List String := kwargs.map (fun q => q.1)

/-- The value a keyword-assignment list associates with a name: the first
matching value, `None` when the name is absent.  (An assignment of `None`
is skipped by `_make` and read back as `None`, so this is exactly what a
constructed record reports for the field.) -/
def kwLookup (kwargs : List (String × PyVal)) (name : String) : PyVal :=
  match kwargs with
  | [] => PyVal.none
  | (k, v) :: rest => if k = name then v else kwLookup rest name

/-- The value a record holds at schema position `p`: the value parallel to the
first occurrence of `p` in `positions`, the sentinel when `p` is absent.  This
is what `__getitem__` computes for an in-range index on a well-formed record. -/
def fullOf (r : SparseRecord) (p : Nat) : PyVal :=
  match idxOf? (p : Int) (r.positions.map Int.ofNat) with
  | some i => r.values.getD i PyVal.none
  | Option.none => PyVal.none

/-- Record invariant (spec section 3): parallel storage, no duplicate
positions, all positions inside the schema.  Every record `_make` builds from
distinct in-schema names satisfies it. -/
def SparseRecord.WF (s : Schema) (r : SparseRecord) : Prop :=
  r.values.length = r.positions.length ∧ r.positions.Nodup ∧
    ∀ p ∈ r.positions, p < s.nfields

instance (s : Schema) (r : SparseRecord) : Decidable (r.WF s) := by
  unfold SparseRecord.WF; infer_instance

/-- Schema invariant: field names are pairwise distinct (guaranteed by the
validation in `sparsenamedtuple`). -/
def Schema.WF (s : Schema) : Prop := s.fieldNames.Nodup

instance (s : Schema) : Decidable s.WF := by
  unfold Schema.WF; infer_instance

/-- Python 2 keyword list, for `keyword.iskeyword`. -/
def pyKeywords : List String :=
  ["and", "as", "assert", "break", "class", "continue", "def", "del", "elif",
   "else", "except", "exec", "finally", "for", "from", "global", "if",
   "import", "in", "is", "lambda", "not", "or", "pass", "print", "raise",
   "return", "try", "while", "with", "yield"]

/-- `keyword.iskeyword(name)`. -/
def iskeyword (name : String) : Bool := pyKeywords.contains name

/-- `all(c.isalnum() or c == '_' for c in name)`. -/
def allAlnumUnderscore (name : String) : Bool :=
  name.toList.all (fun c => c.isAlphanum || c = '_')

/-- `name.startswith('_')`. -/
def startsWithUnderscore (name : String) : Bool :=
  match name.toList with
  | [] => false
  | c :: _ => c = '_'

/-- `name[0].isdigit()` for nonempty `name` (false on empty; in the contexts
where the source evaluates it on an empty string it raises, handled at the
call site). -/
def startsWithDigit (name : String) : Bool :=
  match name.toList with
  | [] => false
  | c :: _ => c.isDigit

/-- The rename condition of the `rename=True` pass: invalid characters,
keyword, empty, leading digit, leading underscore, or a name already seen. -/
def renameBad (name : String) (seen : List String) : Bool :=
  !allAlnumUnderscore name || iskeyword name || name == "" ||
    startsWithDigit name || startsWithUnderscore name || seen.contains name

/-- The `rename=True` pass: each offending name at position `index` is
replaced by `"_" ++ index`; the set `seen` accumulates the original names. -/
def renamePass : List String → Nat → List String → List String
  | [], _, _ => []
  | name :: rest, index, seen =>
    (if renameBad name seen then "_" ++ toString index else name)
      :: renamePass rest (index + 1) (name :: seen)

/-- The per-name validation loop over `[typename] + field_names`: invalid
characters, keywords and a leading digit raise ValueError; indexing `name[0]`
on an empty name raises IndexError. -/
def checkName (name : String) : Except Err Unit :=
  if !allAlnumUnderscore name then .error .validationError
  else if iskeyword name then .error .validationError
  else
    match name.toList with
    | [] => .error .indexOutOfRange
    | c :: _ => if c.isDigit then .error .validationError else .ok ()

/-- Run `checkName` over a list of names, first error wins. -/
def checkAll : List String → Except Err Unit
  | [] => .ok ()
  | name :: rest =>
    match checkName name with
    | .error e => .error e
    | .ok _ => checkAll rest

/-- The duplicate/underscore loop: a leading underscore without rename mode
raises ValueError, a name equal to an earlier one raises ValueError. -/
def dupCheck (rename : Bool) : List String → List String → Except Err Unit
  | [], _ => .ok ()
  | name :: rest, seen =>
    if startsWithUnderscore name && !rename then .error .validationError
    else if seen.contains name then .error .validationError
    else dupCheck rename rest (name :: seen)

/-- The validation portion of the `sparsenamedtuple` factory: optionally run
the rename pass, check every name (type name first), then reject duplicates
and reserved leading underscores; on success the fabricated class's `_fields`
is the resulting name list. -/
def sparsenamedtuple (typename : String) (field_names : List String) (rename : Bool) :
    Except Err Schema :=
  let names := if rename then renamePass field_names 0 [] else field_names
  match checkAll (typename :: names) with
  | .error e => .error e
  | .ok _ =>
    match dupCheck rename names [] with
    | .error e => .error e
    | .ok _ => .ok ⟨names⟩

/-- Scenario A schema: the eight customer fields. -/
def schemaA : Schema :=
  ⟨["username", "first", "middle", "last", "city", "state", "zip", "bday"]⟩

/-- Scenario A construction call `{username: "jdoe", state: "NY"}`. -/
def kwargsA : List (String × PyVal) :=
  [("username", PyVal.str "jdoe"), ("state", PyVal.str "NY")]

/-- The record Scenario A produces: values `("jdoe", "NY")`, positions `(0, 5)`. -/
def recA : SparseRecord := ⟨[PyVal.str "jdoe", PyVal.str "NY"], [0, 5]⟩

/-- The dense full sequence of Scenario A. -/
def denseA : List PyVal :=
  [PyVal.str "jdoe", PyVal.none, PyVal.none, PyVal.none, PyVal.none,
   PyVal.str "NY", PyVal.none, PyVal.none]

example : _make schemaA kwargsA = .ok recA := by rfl
example : rawTuple recA =
    [PyVal.str "jdoe", PyVal.str "NY", PyVal.tup [0, 5]] := by rfl
example : getItem schemaA recA 5 = .ok (PyVal.str "NY") := by rfl
example : getItem schemaA recA 1 = .ok PyVal.none := by rfl
example : getItem schemaA recA (-1) = .ok PyVal.none := by rfl
example : getItem schemaA recA (-9) = .ok PyVal.none := by rfl
example : getItem schemaA recA 8 = .error .indexOutOfRange := by rfl
example : _asnamedtuple schemaA recA = .ok denseA := by rfl
example : recordEqDense schemaA recA denseA = .ok true := by rfl
example : denseEqRecord denseA recA = false := by rfl
example : sparsenamedtuple "Point" ["x", "x"] false = .error .validationError := by rfl
example : sparsenamedtuple "Point" ["x", "x"] true = .ok ⟨["x", "_1"]⟩ := by rfl

/-! ### Basic lemmas about `idxOf?` -/

theorem idxOf?_eq_none_iff {α : Type} [DecidableEq α] (a : α) (l : List α) :
    idxOf? a l = Option.none ↔ a ∉ l := by
  induction l with
  | nil => simp [idxOf?]
  | cons b t ih =>
    simp only [idxOf?, List.mem_cons]
    by_cases hb : b = a
    · simp [hb]
    · rw [if_neg hb]
      cases h : idxOf? a t with
      | none =>
        simp only [Option.map_none', true_iff]
        rintro (hc | hc)
        · exact hb hc.symm
        · exact (ih.mp h) hc
      | some i =>
        simp only [Option.map_some']
        constructor
        · intro hc; cases hc
        · intro hc
          exfalso
          have hmem : a ∉ t := fun hm => hc (Or.inr hm)
          rw [ih.mpr hmem] at h
          cases h

theorem idxOf?_getElem? {α : Type} [DecidableEq α] {a : α} {l : List α} {i : Nat}
    (h : idxOf? a l = some i) : l[i]? = some a := by
  induction l generalizing i with
  | nil => simp [idxOf?] at h
  | cons b t ih =>
    by_cases hb : b = a
    · subst hb
      simp [idxOf?] at h
      simp [← h]
    · simp only [idxOf?, if_neg hb] at h
      cases h2 : idxOf? a t with
      | none => rw [h2] at h; simp at h
      | some j =>
        rw [h2] at h
        simp only [Option.map_some', Option.some.injEq] at h
        subst h
        simpa using ih h2

theorem idxOf?_lt_length {α : Type} [DecidableEq α] {a : α} {l : List α} {i : Nat}
    (h : idxOf? a l = some i) : i < l.length := by
  rcases List.getElem?_eq_some.mp (idxOf?_getElem? h) with ⟨hlt, -⟩
  exact hlt

theorem idxOf?_of_nodup {α : Type} [DecidableEq α] {l : List α} (hnd : l.Nodup) :
    ∀ {i : Nat} {a : α}, l[i]? = some a → idxOf? a l = some i := by
  induction l with
  | nil => intro i a h; simp at h
  | cons b t ih =>
    intro i a h
    rcases List.nodup_cons.mp hnd with ⟨hb, ht⟩
    cases i with
    | zero =>
      simp only [List.getElem?_cons_zero, Option.some.injEq] at h
      subst h
      simp [idxOf?]
    | succ j =>
      simp only [List.getElem?_cons_succ] at h
      have hmem : a ∈ t := List.getElem?_mem h
      have hba : b ≠ a := fun hc => hb (hc ▸ hmem)
      simp [idxOf?, if_neg hba, ih ht h]

theorem idxOf?_isSome_of_mem {α : Type} [DecidableEq α] {a : α} {l : List α}
    (h : a ∈ l) : ∃ i, idxOf? a l = some i := by
  cases hi : idxOf? a l with
  | none => exact absurd h ((idxOf?_eq_none_iff a l).mp hi)
  | some i => exact ⟨i, rfl⟩

/-! ### Lemmas about `lookupRaw` and `getItem` -/

theorem lookupRaw_not_found {r : SparseRecord} {n : Int}
    (h : idxOf? n (r.positions.map Int.ofNat) = Option.none) :
    lookupRaw r n = .ok PyVal.none := by
  unfold lookupRaw
  rw [h]

theorem lookupRaw_neg (r : SparseRecord) {n : Int} (hn : n < 0) :
    lookupRaw r n = .ok PyVal.none := by
  apply lookupRaw_not_found
  rw [idxOf?_eq_none_iff]
  intro hmem
  rcases List.mem_map.mp hmem with ⟨p, -, hp⟩
  rw [Int.ofNat_eq_coe] at hp
  omega

theorem lookupRaw_found {r : SparseRecord} {n : Int} {i : Nat}
    (hlen : r.values.length = r.positions.length)
    (h : idxOf? n (r.positions.map Int.ofNat) = some i) :
    lookupRaw r n = .ok (r.values.getD i PyVal.none) := by
  have hi : i < r.positions.length := by
    have h2 := idxOf?_lt_length h
    rw [List.length_map] at h2
    exact h2
  have hiv : i < r.values.length := by omega
  have hget : (rawTuple r)[i]? = some (r.values.getD i PyVal.none) := by
    unfold rawTuple
    rw [List.getElem?_append_left hiv, List.getElem?_eq_getElem hiv]
    rw [List.getD_eq_getElem?_getD, List.getElem?_eq_getElem hiv, Option.getD_some]
  unfold lookupRaw
  rw [h]
  show (match (rawTuple r)[i]? with
    | some v => Except.ok v
    | Option.none => Except.error Err.indexOutOfRange) =
      Except.ok (r.values.getD i PyVal.none)
  rw [hget]

theorem lookupRaw_wf {s : Schema} {r : SparseRecord} (hwf : r.WF s) (n : Int) :
    ∃ v, lookupRaw r n = .ok v := by
  cases h : idxOf? n (r.positions.map Int.ofNat) with
  | none => exact ⟨PyVal.none, lookupRaw_not_found h⟩
  | some i => exact ⟨_, lookupRaw_found hwf.1 h⟩

theorem getItem_neg (s : Schema) (r : SparseRecord) {n : Int} (hn : n < 0) :
    getItem s r n = lookupRaw r ((s.nfields : Int) + n) := by
  simp [getItem, hn]

theorem getItem_in_range (s : Schema) (r : SparseRecord) {n : Int}
    (h0 : 0 ≤ n) (h1 : n < (s.nfields : Int)) :
    getItem s r n = lookupRaw r n := by
  unfold getItem
  rw [if_neg (by omega), if_neg (by omega)]

theorem getItem_too_big (s : Schema) (r : SparseRecord) {n : Int}
    (h : (s.nfields : Int) ≤ n) :
    getItem s r n = .error .indexOutOfRange := by
  unfold getItem
  rw [if_neg (by omega), if_pos h]

/-! ### `traverseE` and `kwLookup` -/

theorem traverseE_ok {β : Type} (f : Nat → Except Err β) (g : Nat → β) :
    ∀ l : List Nat, (∀ x ∈ l, f x = .ok (g x)) → traverseE f l = .ok (l.map g) := by
  intro l
  induction l with
  | nil => intro _; rfl
  | cons a t ih =>
    intro h
    have ha : f a = .ok (g a) := h a (List.mem_cons_self a t)
    have ht := ih (fun x hx => h x (List.mem_cons_of_mem a hx))
    simp [traverseE, ha, ht]

theorem kwLookup_not_mem {kwargs : List (String × PyVal)} {name : String}
    (h : name ∉ keysOf kwargs) : kwLookup kwargs name = PyVal.none := by
  induction kwargs with
  | nil => rfl
  | cons q t ih =>
    simp only [keysOf, List.map_cons, List.mem_cons] at h
    push_neg at h
    have h1 : q.1 ≠ name := fun hc => h.1 hc.symm
    have h2 : name ∉ keysOf t := by simpa [keysOf] using h.2
    cases q with
    | mk k v => simp only [kwLookup, if_neg h1]; exact ih h2

theorem kwLookup_of_getElem? {d : List (String × PyVal)} (hnd : (keysOf d).Nodup) :
    ∀ {p : Nat} {k : String} {v : PyVal}, d[p]? = some (k, v) → kwLookup d k = v := by
  induction d with
  | nil => intro p k v h; simp at h
  | cons q t ih =>
    intro p k v h
    have hnd2 : (keysOf t).Nodup := (List.nodup_cons.mp (by simpa [keysOf] using hnd)).2
    have hq : q.1 ∉ keysOf t := (List.nodup_cons.mp (by simpa [keysOf] using hnd)).1
    cases p with
    | zero =>
      simp only [List.getElem?_cons_zero, Option.some.injEq] at h
      have hk : q.1 = k := by rw [h]
      have hv : q.2 = v := by rw [h]
      cases q with
      | mk k0 v0 => simp only [kwLookup, if_pos hk]; exact hv
    | succ j =>
      simp only [List.getElem?_cons_succ] at h
      have hmem : (k, v) ∈ t := List.getElem?_mem h
      have hkmem : k ∈ keysOf t := by
        simp only [keysOf, List.mem_map]
        exact ⟨(k, v), hmem, rfl⟩
      have hne : q.1 ≠ k := fun hc => hq (hc ▸ hkmem)
      cases q with
      | mk k0 v0 => simp only [kwLookup, if_neg hne]; exact ih hnd2 h

/-! ### Dispatch helpers for `lookupRaw` -/

theorem lookupRaw_eq_found {r : SparseRecord} {n : Int} {i : Nat} {w : PyVal}
    (h : idxOf? n (r.positions.map Int.ofNat) = some i)
    (hw : (rawTuple r)[i]? = some w) : lookupRaw r n = .ok w := by
  unfold lookupRaw
  rw [h]
  show (match (rawTuple r)[i]? with
    | some v => Except.ok v
    | Option.none => Except.error Err.indexOutOfRange) = Except.ok w
  rw [hw]

theorem lookupRaw_cons (v : PyVal) (vs : List PyVal) (i : Nat) (ps : List Nat)
    (hlen : vs.length = ps.length) (n : Int) :
    lookupRaw ⟨v :: vs, i :: ps⟩ n =
      if (i : Int) = n then .ok v else lookupRaw ⟨vs, ps⟩ n := by
  have hmap : ((⟨v :: vs, i :: ps⟩ : SparseRecord).positions.map Int.ofNat)
      = (i : Int) :: ps.map Int.ofNat := rfl
  by_cases hi : (i : Int) = n
  · rw [if_pos hi]
    have hidx : idxOf? n ((⟨v :: vs, i :: ps⟩ : SparseRecord).positions.map Int.ofNat)
        = some 0 := by rw [hmap]; simp [idxOf?, hi]
    have hraw : (rawTuple ⟨v :: vs, i :: ps⟩)[0]? = some v := by
      show (v :: (vs ++ [PyVal.tup ((i :: ps).map Int.ofNat)]))[0]? = some v
      rw [List.getElem?_cons_zero]
    exact lookupRaw_eq_found hidx hraw
  · rw [if_neg hi]
    cases h2 : idxOf? n (ps.map Int.ofNat) with
    | none =>
      have hidx : idxOf? n ((⟨v :: vs, i :: ps⟩ : SparseRecord).positions.map Int.ofNat)
          = Option.none := by rw [hmap]; simp [idxOf?, hi, h2]
      rw [lookupRaw_not_found hidx, lookupRaw_not_found h2]
    | some j =>
      have hj : j < ps.length := by
        have h3 := idxOf?_lt_length h2
        rw [List.length_map] at h3
        exact h3
      have hjv : j < vs.length := by omega
      have hidx : idxOf? n ((⟨v :: vs, i :: ps⟩ : SparseRecord).positions.map Int.ofNat)
          = some (j + 1) := by rw [hmap]; simp [idxOf?, hi, h2]
      have hraw : (rawTuple ⟨v :: vs, i :: ps⟩)[j + 1]? = some (vs.getD j PyVal.none) := by
        show (v :: (vs ++ [PyVal.tup ((i :: ps).map Int.ofNat)]))[j + 1]? = _
        rw [List.getElem?_cons_succ, List.getElem?_append_left hjv,
          List.getElem?_eq_getElem hjv]
        rw [List.getD_eq_getElem?_getD, List.getElem?_eq_getElem hjv, Option.getD_some]
      rw [lookupRaw_eq_found hidx hraw, lookupRaw_found hlen h2]

/-! ### Specification of the construction loop -/

theorem makeLoop_ok_spec (s : Schema) :
    ∀ (kwargs : List (String × PyVal)) {vs : List PyVal} {ps : List Nat},
      makeLoop s kwargs = .ok (vs, ps) →
      vs.length = ps.length ∧
      vs = (kwargs.filter (fun q => !(q.2 == PyVal.none))).map (fun q => q.2) ∧
      (∀ j ∈ ps, ∃ k, k ∈ keysOf kwargs ∧ idxOf? k s.fieldNames = some j) ∧
      (∀ q ∈ kwargs, q.2 ≠ PyVal.none → q.1 ∈ s.fieldNames) := by
  intro kwargs
  induction kwargs with
  | nil =>
    intro vs ps h
    simp only [makeLoop] at h
    injection h with h
    injection h with h1 h2
    subst h1; subst h2
    refine ⟨rfl, rfl, ?_, ?_⟩
    · intro j hj
      simp at hj
    · intro q hq
      simp at hq
  | cons q rest ih =>
    intro vs ps h
    obtain ⟨key, value⟩ := q
    by_cases hv : value = PyVal.none
    · rw [makeLoop, if_neg (by simp [hv])] at h
      rcases ih h with ⟨h1, h2, h3, h4⟩
      refine ⟨h1, ?_, ?_, ?_⟩
      · rw [h2]
        have : (((key, value) :: rest).filter (fun q => !(q.2 == PyVal.none)))
            = rest.filter (fun q => !(q.2 == PyVal.none)) := by
          rw [List.filter_cons]
          simp [hv]
        rw [this]
      · intro j hj
        rcases h3 j hj with ⟨k, hk1, hk2⟩
        exact ⟨k, by simp [keysOf] at hk1 ⊢; exact Or.inr hk1, hk2⟩
      · intro q hq hqne
        rcases List.mem_cons.mp hq with hq | hq
        · exact absurd (by rw [hq]; exact hv) hqne
        · exact h4 q hq hqne
    · rw [makeLoop, if_pos (by simp [hv])] at h
      cases hidx : idxOf? key s.fieldNames with
      | none => rw [hidx] at h; cases h
      | some i =>
        rw [hidx] at h
        cases hrec : makeLoop s rest with
        | error e => rw [hrec] at h; cases h
        | ok pr =>
          obtain ⟨vs0, ps0⟩ := pr
          rw [hrec] at h
          injection h with h
          injection h with h1 h2
          subst h1; subst h2
          rcases ih hrec with ⟨g1, g2, g3, g4⟩
          refine ⟨by simp [g1], ?_, ?_, ?_⟩
          · have : (((key, value) :: rest).filter (fun q => !(q.2 == PyVal.none)))
                = (key, value) :: rest.filter (fun q => !(q.2 == PyVal.none)) := by
              rw [List.filter_cons]
              simp [hv]
            rw [this]
            simp [g2]
          · intro j hj
            rcases List.mem_cons.mp hj with hj | hj
            · exact ⟨key, by simp [keysOf], hj ▸ hidx⟩
            · rcases g3 j hj with ⟨k, hk1, hk2⟩
              exact ⟨k, by simp [keysOf] at hk1 ⊢; exact Or.inr hk1, hk2⟩
          · intro q hq hqne
            rcases List.mem_cons.mp hq with hq | hq
            · rw [hq]
              exact List.getElem?_mem (idxOf?_getElem? hidx)
            · exact g4 q hq hqne

theorem makeLoop_isOk (s : Schema) :
    ∀ (kwargs : List (String × PyVal)),
      (∀ q ∈ kwargs, q.2 ≠ PyVal.none → q.1 ∈ s.fieldNames) →
      ∃ vs ps, makeLoop s kwargs = .ok (vs, ps) := by
  intro kwargs
  induction kwargs with
  | nil => intro _; exact ⟨[], [], rfl⟩
  | cons q rest ih =>
    intro h
    obtain ⟨key, value⟩ := q
    have hrest := ih (fun q hq hne => h q (List.mem_cons_of_mem _ hq) hne)
    rcases hrest with ⟨vs0, ps0, hrec⟩
    by_cases hv : value = PyVal.none
    · exact ⟨vs0, ps0, by rw [makeLoop, if_neg (by simp [hv])]; exact hrec⟩
    · have hmem : key ∈ s.fieldNames :=
        h (key, value) (List.mem_cons_self _ _) hv
      rcases idxOf?_isSome_of_mem hmem with ⟨i, hi⟩
      refine ⟨value :: vs0, i :: ps0, ?_⟩
      rw [makeLoop, if_pos (by simp [hv]), hi, hrec]

theorem makeLoop_error (s : Schema) :
    ∀ (kwargs : List (String × PyVal)) {e : Err},
      makeLoop s kwargs = .error e →
      e = .unknownField ∧ ∃ q ∈ kwargs, q.2 ≠ PyVal.none ∧ q.1 ∉ s.fieldNames := by
  intro kwargs
  induction kwargs with
  | nil => intro e h; cases h
  | cons q rest ih =>
    intro e h
    obtain ⟨key, value⟩ := q
    by_cases hv : value = PyVal.none
    · rw [makeLoop, if_neg (by simp [hv])] at h
      rcases ih h with ⟨h1, q2, hq2, hq3, hq4⟩
      exact ⟨h1, q2, List.mem_cons_of_mem _ hq2, hq3, hq4⟩
    · rw [makeLoop, if_pos (by simp [hv])] at h
      cases hidx : idxOf? key s.fieldNames with
      | none =>
        rw [hidx] at h
        injection h with h
        refine ⟨h.symm, (key, value), List.mem_cons_self _ _, hv, ?_⟩
        exact (idxOf?_eq_none_iff key s.fieldNames).mp hidx
      | some i =>
        rw [hidx] at h
        cases hrec : makeLoop s rest with
        | error e2 =>
          rw [hrec] at h
          injection h with h
          rcases ih hrec with ⟨h1, q2, hq2, hq3, hq4⟩
          exact ⟨h ▸ h1, q2, List.mem_cons_of_mem _ hq2, hq3, hq4⟩
        | ok pr =>
          obtain ⟨vs0, ps0⟩ := pr
          rw [hrec] at h
          cases h

theorem makeLoop_nodup (s : Schema) :
    ∀ (kwargs : List (String × PyVal)) {vs : List PyVal} {ps : List Nat},
      (keysOf kwargs).Nodup →
      makeLoop s kwargs = .ok (vs, ps) → ps.Nodup := by
  intro kwargs
  induction kwargs with
  | nil =>
    intro vs ps _ h
    simp only [makeLoop] at h
    injection h with h
    injection h with h1 h2
    subst h2
    exact List.nodup_nil
  | cons q rest ih =>
    intro vs ps hnd h
    obtain ⟨key, value⟩ := q
    have hnd2 : (keysOf rest).Nodup :=
      (List.nodup_cons.mp (by simpa [keysOf] using hnd)).2
    have hkey : key ∉ keysOf rest :=
      (List.nodup_cons.mp (by simpa [keysOf] using hnd)).1
    by_cases hv : value = PyVal.none
    · rw [makeLoop, if_neg (by simp [hv])] at h
      exact ih hnd2 h
    · rw [makeLoop, if_pos (by simp [hv])] at h
      cases hidx : idxOf? key s.fieldNames with
      | none => rw [hidx] at h; cases h
      | some i =>
        rw [hidx] at h
        cases hrec : makeLoop s rest with
        | error e => rw [hrec] at h; cases h
        | ok pr =>
          obtain ⟨vs0, ps0⟩ := pr
          rw [hrec] at h
          injection h with h
          injection h with h1 h2
          subst h2
          rw [List.nodup_cons]
          refine ⟨?_, ih hnd2 hrec⟩
          intro hmem
          rcases (makeLoop_ok_spec s rest hrec).2.2.1 i hmem with ⟨k, hk1, hk2⟩
          have hgi : s.fieldNames[i]? = some key := idxOf?_getElem? hidx
          have hgk : s.fieldNames[i]? = some k := idxOf?_getElem? hk2
          have : key = k := by
            rw [hgi] at hgk
            injection hgk with hgk
          exact hkey (this ▸ hk1)

/-! ### The central access-after-construction lemma -/

theorem getD_eq_some_getElem? {α : Type} {l : List α} {p : Nat} (hp : p < l.length)
    (d : α) : l[p]? = some (l.getD p d) := by
  rw [List.getD_eq_getElem?_getD, List.getElem?_eq_getElem hp, Option.getD_some]

theorem lookupRaw_makeLoop (s : Schema) (hs : s.fieldNames.Nodup) :
    ∀ (kwargs : List (String × PyVal)) {vs : List PyVal} {ps : List Nat},
      (keysOf kwargs).Nodup →
      makeLoop s kwargs = .ok (vs, ps) →
      ∀ p : Nat, p < s.nfields →
        lookupRaw ⟨vs, ps⟩ (p : Int) = .ok (kwLookup kwargs (s.fieldNames.getD p "")) := by
  intro kwargs
  induction kwargs with
  | nil =>
    intro vs ps _ h p hp
    simp only [makeLoop] at h
    injection h with h
    injection h with h1 h2
    subst h1; subst h2
    have hidx : idxOf? (p : Int) (([] : List Nat).map Int.ofNat) = Option.none := rfl
    rw [lookupRaw_not_found hidx]
    rfl
  | cons q rest ih =>
    intro vs ps hnd h p hp
    obtain ⟨key, value⟩ := q
    have hnd2 : (keysOf rest).Nodup :=
      (List.nodup_cons.mp (by simpa [keysOf] using hnd)).2
    have hkey : key ∉ keysOf rest :=
      (List.nodup_cons.mp (by simpa [keysOf] using hnd)).1
    have hgetd : s.fieldNames[p]? = some (s.fieldNames.getD p "") :=
      getD_eq_some_getElem? hp ""
    by_cases hv : value = PyVal.none
    · rw [makeLoop, if_neg (by simp [hv])] at h
      rw [ih hnd2 h p hp]
      show _ = Except.ok (if key = s.fieldNames.getD p "" then value
        else kwLookup rest (s.fieldNames.getD p ""))
      by_cases hk : key = s.fieldNames.getD p ""
      · rw [if_pos hk, hv]
        rw [kwLookup_not_mem (hk ▸ hkey)]
      · rw [if_neg hk]
    · rw [makeLoop, if_pos (by simp [hv])] at h
      cases hidx : idxOf? key s.fieldNames with
      | none => rw [hidx] at h; cases h
      | some i =>
        rw [hidx] at h
        cases hrec : makeLoop s rest with
        | error e => rw [hrec] at h; cases h
        | ok pr =>
          obtain ⟨vs0, ps0⟩ := pr
          rw [hrec] at h
          injection h with h
          injection h with h1 h2
          subst h1; subst h2
          have hlen0 : vs0.length = ps0.length := (makeLoop_ok_spec s rest hrec).1
          rw [lookupRaw_cons value vs0 i ps0 hlen0 (p : Int)]
          show _ = Except.ok (if key = s.fieldNames.getD p "" then value
            else kwLookup rest (s.fieldNames.getD p ""))
          by_cases hk : key = s.fieldNames.getD p ""
          · have hip : i = p := by
              have hp2 : idxOf? key s.fieldNames = some p :=
                idxOf?_of_nodup hs (hk ▸ hgetd)
              rw [hidx] at hp2
              injection hp2 with hp2
            rw [if_pos (by omega), if_pos hk]
          · have hip : ¬ ((i : Int) = (p : Int)) := by
              intro hc
              have hip2 : i = p := by omega
              apply hk
              have hgi : s.fieldNames[i]? = some key := idxOf?_getElem? hidx
              rw [hip2, hgetd] at hgi
              injection hgi with hgi
              exact hgi.symm
            rw [if_neg hip, if_neg hk, ih hnd2 hrec p hp]

/-! ### `_make`-level wrappers -/

theorem make_ok (s : Schema) (kwargs : List (String × PyVal))
    (h : ∀ q ∈ kwargs, q.2 ≠ PyVal.none → q.1 ∈ s.fieldNames) :
    ∃ r, _make s kwargs = .ok r := by
  rcases makeLoop_isOk s kwargs h with ⟨vs, ps, hmk⟩
  exact ⟨⟨vs, ps⟩, by rw [_make, hmk]⟩

theorem make_components (s : Schema) {kwargs : List (String × PyVal)} {r : SparseRecord}
    (h : _make s kwargs = .ok r) : makeLoop s kwargs = .ok (r.values, r.positions) := by
  rw [_make] at h
  cases hmk : makeLoop s kwargs with
  | error e => rw [hmk] at h; cases h
  | ok pr =>
    obtain ⟨vs, ps⟩ := pr
    rw [hmk] at h
    injection h with h
    rw [← h]

theorem make_error_iff (s : Schema) (kwargs : List (String × PyVal)) {e : Err} :
    _make s kwargs = .error e ↔
      e = .unknownField ∧ ∃ q ∈ kwargs, q.2 ≠ PyVal.none ∧ q.1 ∉ s.fieldNames := by
  constructor
  · intro h
    rw [_make] at h
    cases hmk : makeLoop s kwargs with
    | error e2 =>
      rw [hmk] at h
      injection h with h
      exact h ▸ makeLoop_error s kwargs hmk
    | ok pr =>
      obtain ⟨vs, ps⟩ := pr
      rw [hmk] at h
      cases h
  · rintro ⟨he, qbad, hmem, hne, hnot⟩
    subst he
    cases hmk : _make s kwargs with
    | error e2 =>
      have h2 : e2 = Err.unknownField := by
        rw [_make] at hmk
        cases hml : makeLoop s kwargs with
        | error e3 =>
          rw [hml] at hmk
          injection hmk with hmk
          exact hmk ▸ (makeLoop_error s kwargs hml).1
        | ok pr =>
          obtain ⟨vs, ps⟩ := pr
          rw [hml] at hmk
          cases hmk
      rw [h2]
    | ok r =>
      exfalso
      have hml := make_components s hmk
      exact hnot ((makeLoop_ok_spec s kwargs hml).2.2.2 qbad hmem hne)

/-! ### Access and views on constructed and well-formed records -/

theorem getItem_wf {s : Schema} {r : SparseRecord} (hwf : r.WF s)
    {p : Nat} (hp : p < s.nfields) :
    getItem s r (p : Int) = .ok (fullOf r p) := by
  rw [getItem_in_range s r (by omega) (by omega)]
  unfold fullOf
  cases h : idxOf? (p : Int) (r.positions.map Int.ofNat) with
  | none => rw [lookupRaw_not_found h]
  | some i => rw [lookupRaw_found hwf.1 h]

theorem asnamedtuple_wf {s : Schema} {r : SparseRecord} (hwf : r.WF s) :
    _asnamedtuple s r = .ok ((List.range s.nfields).map (fullOf r)) := by
  unfold _asnamedtuple
  apply traverseE_ok
  intro x hx
  exact getItem_wf hwf (List.mem_range.mp hx)

theorem asdict_wf {s : Schema} {r : SparseRecord} (hwf : r.WF s) :
    _asdict s r = .ok ((List.range s.nfields).map
      (fun p => (s.fieldNames.getD p "", fullOf r p))) := by
  unfold _asdict
  apply traverseE_ok
  intro x hx
  rw [getItem_wf hwf (List.mem_range.mp hx)]

theorem getItem_make {s : Schema} (hs : s.WF) {kwargs : List (String × PyVal)}
    {r : SparseRecord} (hnd : (keysOf kwargs).Nodup) (hmk : _make s kwargs = .ok r)
    {p : Nat} (hp : p < s.nfields) :
    getItem s r (p : Int) = .ok (kwLookup kwargs (s.fieldNames.getD p "")) := by
  rw [getItem_in_range s r (by omega) (by omega)]
  have h := lookupRaw_makeLoop s hs kwargs hnd (make_components s hmk) p hp
  exact h

theorem make_wf {s : Schema} {kwargs : List (String × PyVal)} {r : SparseRecord}
    (hnd : (keysOf kwargs).Nodup) (hmk : _make s kwargs = .ok r) : r.WF s := by
  have hml := make_components s hmk
  rcases makeLoop_ok_spec s kwargs hml with ⟨h1, -, h3, -⟩
  refine ⟨h1, makeLoop_nodup s kwargs hnd hml, ?_⟩
  intro j hj
  rcases h3 j hj with ⟨k, -, hk2⟩
  have := idxOf?_lt_length hk2
  exact this

theorem asnamedtuple_make {s : Schema} (hs : s.WF) {kwargs : List (String × PyVal)}
    {r : SparseRecord} (hnd : (keysOf kwargs).Nodup) (hmk : _make s kwargs = .ok r) :
    _asnamedtuple s r = .ok ((List.range s.nfields).map
      (fun p => kwLookup kwargs (s.fieldNames.getD p ""))) := by
  unfold _asnamedtuple
  apply traverseE_ok
  intro x hx
  exact getItem_make hs hnd hmk (List.mem_range.mp hx)

theorem asdict_make {s : Schema} (hs : s.WF) {kwargs : List (String × PyVal)}
    {r : SparseRecord} (hnd : (keysOf kwargs).Nodup) (hmk : _make s kwargs = .ok r) :
    _asdict s r = .ok ((List.range s.nfields).map
      (fun p => (s.fieldNames.getD p "", kwLookup kwargs (s.fieldNames.getD p "")))) := by
  unfold _asdict
  apply traverseE_ok
  intro x hx
  rw [getItem_make hs hnd hmk (List.mem_range.mp hx)]

theorem map_getD_range {α : Type} (l : List α) (d : α) :
    (List.range l.length).map (fun i => l.getD i d) = l := by
  induction l with
  | nil => rfl
  | cons a t ih =>
    rw [List.length_cons, List.range_succ_eq_map, List.map_cons, List.map_map]
    have hc : ((fun i => (a :: t).getD i d) ∘ Nat.succ) = fun i => t.getD i d := rfl
    rw [hc, ih]
    rfl

theorem kwLookup_perm :
    ∀ {k1 k2 : List (String × PyVal)}, k1.Perm k2 → (keysOf k1).Nodup →
      ∀ name, kwLookup k1 name = kwLookup k2 name := by
  intro k1 k2 h
  induction h with
  | nil => intro _ _; rfl
  | cons x h ih =>
    intro hnd name
    obtain ⟨k, v⟩ := x
    have hnd2 := (List.nodup_cons.mp hnd).2
    show (if k = name then v else kwLookup _ name)
      = (if k = name then v else kwLookup _ name)
    by_cases hk : k = name
    · rw [if_pos hk, if_pos hk]
    · rw [if_neg hk, if_neg hk, ih hnd2 name]
  | swap x y l =>
    intro hnd name
    obtain ⟨kx, vx⟩ := x
    obtain ⟨ky, vy⟩ := y
    have hnd2 : (ky :: kx :: keysOf l).Nodup := hnd
    have hxy : ky ≠ kx := by
      have h1 := (List.nodup_cons.mp hnd2).1
      intro hc
      exact h1 (by rw [hc]; exact List.mem_cons_self _ _)
    show (if ky = name then vy else if kx = name then vx else kwLookup l name)
      = (if kx = name then vx else if ky = name then vy else kwLookup l name)
    by_cases h1 : ky = name
    · have h2 : ¬ kx = name := fun hc => hxy (h1.trans hc.symm)
      rw [if_pos h1, if_neg h2, if_pos h1]
    · rw [if_neg h1]
      by_cases h2 : kx = name
      · rw [if_pos h2, if_pos h2]
      · rw [if_neg h2, if_neg h2, if_neg h1]
  | trans h1 h2 ih1 ih2 =>
    intro hnd name
    have hperm := h1.map (fun q : String × PyVal => q.1)
    have hmid := hperm.nodup_iff.mp hnd
    rw [ih1 hnd name, ih2 hmid name]

/-! ### Lemmas about dictionary update (`_replace`) -/

theorem any_key_iff (vars : List (String × PyVal)) (key : String) :
    (vars.any (fun q => q.1 = key) = true) ↔ key ∈ keysOf vars := by
  simp [keysOf, List.any_eq_true]

theorem kwLookup_map_ne {k name : String} (hne : name ≠ k) (v : PyVal) :
    ∀ vars : List (String × PyVal),
      kwLookup (vars.map (fun q => if q.1 = k then (k, v) else q)) name
        = kwLookup vars name := by
  intro vars
  induction vars with
  | nil => rfl
  | cons q t ih =>
    obtain ⟨kq, vq⟩ := q
    by_cases hq : kq = k
    · simp only [List.map_cons, if_pos hq]
      show (if k = name then v else _) = (if kq = name then vq else _)
      have h1 : ¬ k = name := fun hc => hne hc.symm
      have h2 : ¬ kq = name := by rw [hq]; exact h1
      rw [if_neg h1, if_neg h2, ih]
    · simp only [List.map_cons, if_neg hq]
      show (if kq = name then vq else _) = (if kq = name then vq else _)
      by_cases h2 : kq = name
      · rw [if_pos h2, if_pos h2]
      · rw [if_neg h2, if_neg h2, ih]

theorem kwLookup_map_eq {k : String} (v : PyVal) :
    ∀ vars : List (String × PyVal), k ∈ keysOf vars →
      kwLookup (vars.map (fun q => if q.1 = k then (k, v) else q)) k = v := by
  intro vars
  induction vars with
  | nil => intro h; simp [keysOf] at h
  | cons q t ih =>
    intro h
    obtain ⟨kq, vq⟩ := q
    by_cases hq : kq = k
    · simp only [List.map_cons, if_pos hq]
      show (if k = k then v else _) = v
      rw [if_pos rfl]
    · simp only [List.map_cons, if_neg hq]
      show (if kq = k then vq else _) = v
      rw [if_neg hq]
      apply ih
      have h2 : k ∈ kq :: keysOf t := h
      rcases List.mem_cons.mp h2 with hc | hc
      · exact absurd hc.symm hq
      · exact hc

theorem kwLookup_append_single {k : String} (v : PyVal) (name : String) :
    ∀ vars : List (String × PyVal), k ∉ keysOf vars →
      kwLookup (vars ++ [(k, v)]) name = if k = name then v else kwLookup vars name := by
  intro vars
  induction vars with
  | nil =>
    intro _
    show (if k = name then v else kwLookup [] name) = _
    rfl
  | cons q t ih =>
    intro hk
    obtain ⟨kq, vq⟩ := q
    have hk2 : k ∉ keysOf t := fun hc => hk (List.mem_cons_of_mem _ hc)
    have hkq : ¬ k = kq := fun hc => hk (by rw [hc]; exact List.mem_cons_self _ _)
    show (if kq = name then vq else kwLookup (t ++ [(k, v)]) name) = _
    by_cases h1 : kq = name
    · have h2 : ¬ k = name := fun hc => hkq (hc.trans h1.symm)
      rw [if_pos h1, if_neg h2]
      show vq = (if kq = name then vq else _)
      rw [if_pos h1]
    · rw [if_neg h1, ih hk2]
      by_cases h2 : k = name
      · rw [if_pos h2, if_pos h2]
      · rw [if_neg h2, if_neg h2]
        show kwLookup t name = (if kq = name then vq else kwLookup t name)
        rw [if_neg h1]

theorem kwLookup_updAssoc (vars : List (String × PyVal)) (k : String) (v : PyVal)
    (name : String) :
    kwLookup (updAssoc vars k v) name = if k = name then v else kwLookup vars name := by
  unfold updAssoc
  by_cases hmem : (vars.any (fun q => q.1 = k)) = true
  · rw [if_pos hmem]
    by_cases hk : k = name
    · subst hk
      rw [if_pos rfl]
      exact kwLookup_map_eq v vars ((any_key_iff vars k).mp hmem)
    · rw [if_neg hk]
      exact kwLookup_map_ne (fun hc => hk hc.symm) v vars
  · rw [if_neg hmem]
    have hknot : k ∉ keysOf vars := fun hc => hmem ((any_key_iff vars k).mpr hc)
    exact kwLookup_append_single v name vars hknot

theorem keysOf_map_upd (k : String) (v : PyVal) :
    ∀ vars : List (String × PyVal),
      keysOf (vars.map (fun q => if q.1 = k then (k, v) else q)) = keysOf vars := by
  intro vars
  induction vars with
  | nil => rfl
  | cons q t ih =>
    obtain ⟨kq, vq⟩ := q
    by_cases hq : kq = k
    · simp only [List.map_cons, if_pos hq]
      show k :: keysOf (t.map (fun q => if q.1 = k then (k, v) else q)) = kq :: keysOf t
      rw [hq, ih]
    · simp only [List.map_cons, if_neg hq]
      show kq :: keysOf (t.map (fun q => if q.1 = k then (k, v) else q)) = kq :: keysOf t
      rw [ih]

theorem keysOf_updAssoc (vars : List (String × PyVal)) (k : String) (v : PyVal)
    (h : k ∈ keysOf vars) : keysOf (updAssoc vars k v) = keysOf vars := by
  unfold updAssoc
  rw [if_pos ((any_key_iff vars k).mpr h)]
  exact keysOf_map_upd k v vars

theorem keysOf_updateAll :
    ∀ (kwargs vars : List (String × PyVal)),
      (∀ q ∈ kwargs, q.1 ∈ keysOf vars) →
      keysOf (updateAll vars kwargs) = keysOf vars := by
  intro kwargs
  induction kwargs with
  | nil => intro vars _; rfl
  | cons q rest ih =>
    intro vars h
    have hq : q.1 ∈ keysOf vars := h q (List.mem_cons_self _ _)
    have hkeys := keysOf_updAssoc vars q.1 q.2 hq
    show keysOf (updateAll (updAssoc vars q.1 q.2) rest) = keysOf vars
    rw [ih (updAssoc vars q.1 q.2)
      (fun p hp => hkeys ▸ h p (List.mem_cons_of_mem _ hp)), hkeys]

theorem kwLookup_updateAll :
    ∀ (kwargs vars : List (String × PyVal)) (name : String), (keysOf kwargs).Nodup →
      kwLookup (updateAll vars kwargs) name =
        if name ∈ keysOf kwargs then kwLookup kwargs name else kwLookup vars name := by
  intro kwargs
  induction kwargs with
  | nil =>
    intro vars name _
    rw [if_neg (by simp [keysOf])]
    rfl
  | cons q rest ih =>
    intro vars name hnd
    obtain ⟨k, v⟩ := q
    have hnd2 : (k :: keysOf rest).Nodup := hnd
    have hk : k ∉ keysOf rest := (List.nodup_cons.mp hnd2).1
    have hndr := (List.nodup_cons.mp hnd2).2
    show kwLookup (updateAll (updAssoc vars k v) rest) name = _
    rw [ih (updAssoc vars k v) name hndr]
    by_cases h1 : name ∈ keysOf rest
    · rw [if_pos h1,
        if_pos (show name ∈ keysOf ((k, v) :: rest) from List.mem_cons_of_mem _ h1)]
      have hkn : ¬ k = name := fun hc => hk (hc ▸ h1)
      show kwLookup rest name = (if k = name then v else kwLookup rest name)
      rw [if_neg hkn]
    · rw [if_neg h1, kwLookup_updAssoc vars k v name]
      by_cases h2 : k = name
      · rw [if_pos h2,
          if_pos (show name ∈ keysOf ((k, v) :: rest) from by
            rw [← h2]; exact List.mem_cons_self _ _)]
        show v = (if k = name then v else kwLookup rest name)
        rw [if_pos h2]
      · rw [if_neg h2,
          if_neg (show name ∉ keysOf ((k, v) :: rest) from by
            intro hc
            rcases List.mem_cons.mp (show name ∈ k :: keysOf rest from hc) with hc2 | hc2
            · exact h2 hc2.symm
            · exact h1 hc2)]

/-! ### Lemmas about the rename pass -/

theorem renamePass_length :
    ∀ (names : List String) (index : Nat) (seen : List String),
      (renamePass names index seen).length = names.length := by
  intro names
  induction names with
  | nil => intro _ _; rfl
  | cons nm rest ih =>
    intro index seen
    show (renamePass rest (index + 1) (nm :: seen)).length + 1 = rest.length + 1
    rw [ih]

theorem renamePass_getD :
    ∀ (names : List String) (index : Nat) (seen : List String) (i : Nat),
      i < names.length →
      (renamePass names index seen).getD i "" =
        if renameBad (names.getD i "") ((names.take i).reverse ++ seen)
        then "_" ++ toString (index + i) else names.getD i "" := by
  intro names
  induction names with
  | nil => intro index seen i h; simp at h
  | cons nm rest ih =>
    intro index seen i h
    cases i with
    | zero => simp [renamePass]
    | succ j =>
      have hj : j < rest.length := by simpa using h
      show (renamePass rest (index + 1) (nm :: seen)).getD j "" = _
      rw [ih (index + 1) (nm :: seen) j hj]
      simp only [List.getD_cons_succ, List.take_succ_cons, List.reverse_cons,
        List.append_assoc, List.singleton_append]
      have hadd : index + 1 + j = index + (j + 1) := by omega
      rw [hadd]

/-! ### Equality and replace dispatch helpers -/

theorem recordEqDense_of_ok {s : Schema} {r : SparseRecord} {t : List PyVal}
    (h : _asnamedtuple s r = .ok t) (other : List PyVal) :
    recordEqDense s r other = .ok (decide (t = other)) := by
  unfold recordEqDense
  rw [h]

theorem recordEqSparse_of_ok {s : Schema} {r : SparseRecord} {t : List PyVal}
    {s2 : Schema} {r2 : SparseRecord} {t2 : List PyVal}
    (h : _asnamedtuple s r = .ok t) (h2 : _asnamedtuple s2 r2 = .ok t2) :
    recordEqSparse s r s2 r2 = .ok (decide (t = t2)) := by
  unfold recordEqSparse
  rw [h]
  show (match _asnamedtuple s2 r2 with
    | .error e => Except.error e
    | .ok u => Except.ok (decide (t = u))) = .ok (decide (t = t2))
  rw [h2]

theorem replace_of_asdict {s : Schema} {r : SparseRecord} {d : List (String × PyVal)}
    (h : _asdict s r = .ok d) (kwargs : List (String × PyVal)) :
    _replace s r kwargs = _make s (updateAll d kwargs) := by
  unfold _replace
  rw [h]

theorem keysOf_asdict {s : Schema} {r : SparseRecord} :
    keysOf ((List.range s.nfields).map
      (fun p => (s.fieldNames.getD p "", fullOf r p))) = s.fieldNames := by
  unfold keysOf
  rw [List.map_map]
  have hc : ((fun q : String × PyVal => q.1)
      ∘ (fun p => (s.fieldNames.getD p "", fullOf r p)))
      = fun p => s.fieldNames.getD p "" := rfl
  rw [hc]
  exact map_getD_range s.fieldNames ""

theorem kwLookup_asdict {s : Schema} {r : SparseRecord} (hs : s.WF)
    {p : Nat} (hp : p < s.nfields) :
    kwLookup ((List.range s.nfields).map
      (fun p => (s.fieldNames.getD p "", fullOf r p))) (s.fieldNames.getD p "")
      = fullOf r p := by
  apply kwLookup_of_getElem? (p := p)
  · rw [List.getElem?_map, List.getElem?_range hp]
    rfl
  · rw [keysOf_asdict]
    exact hs

/-! ### The claims -/

/-- Claim C1: for the 8-field Scenario A schema, constructing from
`{username: "jdoe", state: "NY"}` stores exactly the two present values
followed by the single trailing positions group `(0, 5)`; in general, every
successful construction stores exactly the non-sentinel assigned values (in
supply order) plus the parallel positions list, and the raw tuple is those
values followed by one trailing positions group, independent of the field
count. -/
theorem claim1 :
    (_make schemaA kwargsA = .ok recA ∧
      rawTuple recA = [PyVal.str "jdoe", PyVal.str "NY", PyVal.tup [0, 5]]) ∧
    ∀ (s : Schema) (kwargs : List (String × PyVal)) (r : SparseRecord),
      _make s kwargs = .ok r →
      r.values = (kwargs.filter (fun q => !(q.2 == PyVal.none))).map (fun q => q.2) ∧
      r.positions.length = r.values.length ∧
      rawTuple r = r.values ++ [PyVal.tup (r.positions.map Int.ofNat)] := by
  refine ⟨⟨rfl, rfl⟩, ?_⟩
  intro s kwargs r hmk
  rcases makeLoop_ok_spec s kwargs (make_components s hmk) with ⟨h1, h2, -, -⟩
  exact ⟨h2, h1.symm, rfl⟩

/-- Witness for claim C1 at the Scenario A input. -/
theorem claim1_witness :
    recA.values = [PyVal.str "jdoe", PyVal.str "NY"] ∧
    recA.positions.length = recA.values.length := by
  have h := claim1.2 schemaA kwargsA recA claim1.1.1
  exact ⟨by rw [h.1]; rfl, h.2.1⟩

/-- Claim C2: on a well-formed record, positional access at an in-range schema
position returns the stored value parallel to that position when present, and
the no-value sentinel (as a defined, non-error result) when absent. -/
theorem claim2 (s : Schema) (r : SparseRecord) (hwf : r.WF s)
    (p : Nat) (hp : p < s.nfields) :
    (p ∉ r.positions → getItem s r (p : Int) = .ok PyVal.none) ∧
    (∀ (i : Nat) (v : PyVal), r.positions[i]? = some p → r.values[i]? = some v →
      getItem s r (p : Int) = .ok v) := by
  constructor
  · intro habs
    rw [getItem_in_range s r (by omega) (by omega)]
    apply lookupRaw_not_found
    rw [idxOf?_eq_none_iff]
    intro hmem
    rcases List.mem_map.mp hmem with ⟨q, hq, hqp⟩
    have : q = p := Int.ofNat.inj hqp
    exact habs (this ▸ hq)
  · intro i v hpos hval
    rw [getItem_in_range s r (by omega) (by omega)]
    have hmapnd : (r.positions.map Int.ofNat).Nodup :=
      hwf.2.1.map (fun a b hab => Int.ofNat.inj hab)
    have hmget : (r.positions.map Int.ofNat)[i]? = some ((p : Nat) : Int) := by
      rw [List.getElem?_map, hpos]
      rfl
    have hidx := idxOf?_of_nodup hmapnd hmget
    rw [lookupRaw_found hwf.1 hidx]
    have hgd : r.values.getD i PyVal.none = v := by
      rw [List.getD_eq_getElem?_getD, hval, Option.getD_some]
    rw [hgd]

/-- Witness for claim C2 at the Scenario A record: position 5 is present with
value "NY" at slot 1, position 2 is absent and reads as the sentinel. -/
theorem claim2_witness :
    getItem schemaA recA (5 : Nat) = .ok (PyVal.str "NY") ∧
    getItem schemaA recA (2 : Nat) = .ok PyVal.none := by
  constructor
  · exact (claim2 schemaA recA (by decide) 5 (by decide)).2 1 (PyVal.str "NY") rfl rfl
  · exact (claim2 schemaA recA (by decide) 2 (by decide)).1 (by decide)

/-- Claim C3 counterexample: on the Scenario A record (8 fields), positional
access at -9 resolves to -1, which is outside [0, 8), yet the code returns the
no-value sentinel instead of failing with IndexOutOfRangeError. -/
theorem claim3_counterexample :
    getItem schemaA recA (-9) = .ok PyVal.none ∧
    ¬ getItem schemaA recA (-9) = .error Err.indexOutOfRange := by
  constructor
  · rfl
  · intro h
    rw [show getItem schemaA recA (-9) = .ok PyVal.none from rfl] at h
    cases h

/-- Claim C3 amended: a negative index is replaced by fieldCount + n and
get(r, -1) = get(r, fieldCount - 1), but IndexOutOfRangeError is raised
exactly when the index is at least fieldCount; a resolved index that is still
negative is not rejected and yields the no-value sentinel. -/
theorem claim3_amended (s : Schema) (r : SparseRecord) (hwf : r.WF s) :
    (∀ n : Int, n < 0 → getItem s r n = lookupRaw r ((s.nfields : Int) + n)) ∧
    getItem s r (-1) = getItem s r ((s.nfields : Int) - 1) ∧
    (∀ n : Int, getItem s r n = .error Err.indexOutOfRange ↔ (s.nfields : Int) ≤ n) ∧
    (∀ n : Int, n < 0 → (s.nfields : Int) + n < 0 → getItem s r n = .ok PyVal.none) := by
  refine ⟨fun n hn => getItem_neg s r hn, ?_, ?_, ?_⟩
  · have h1 : getItem s r (-1) = lookupRaw r ((s.nfields : Int) + (-1)) :=
      getItem_neg s r (by omega)
    by_cases hn : 1 ≤ s.nfields
    · have h2 : getItem s r ((s.nfields : Int) - 1) = lookupRaw r ((s.nfields : Int) - 1) :=
        getItem_in_range s r (by omega) (by omega)
      rw [h1, h2]
      congr 1
    · have h0 : s.nfields = 0 := by omega
      rw [h1, getItem_neg s r (by omega)]
      congr 1
      omega
  · intro n
    constructor
    · intro h
      by_contra hlt
      push_neg at hlt
      by_cases hneg : n < 0
      · rw [getItem_neg s r hneg] at h
        rcases lookupRaw_wf hwf ((s.nfields : Int) + n) with ⟨v, hv⟩
        rw [hv] at h
        cases h
      · rw [getItem_in_range s r (by omega) hlt] at h
        rcases lookupRaw_wf hwf n with ⟨v, hv⟩
        rw [hv] at h
        cases h
    · exact getItem_too_big s r
  · intro n hn hres
    rw [getItem_neg s r hn]
    exact lookupRaw_neg r hres

/-- Witness for claim C3 amended at the Scenario A record. -/
theorem claim3_amended_witness :
    recA.WF schemaA ∧
    getItem schemaA recA (-1) = getItem schemaA recA ((schemaA.nfields : Int) - 1) ∧
    getItem schemaA recA 8 = .error Err.indexOutOfRange := by
  have h := claim3_amended schemaA recA (by decide)
  exact ⟨by decide, h.2.1, (h.2.2.1 8).mpr (by decide)⟩

/-- Claim C4: equality on a record against its own full sequence holds; in
general `__eq__` computes the record's full sequence and compares it
element-wise (structurally) against the other operand, or against the other
record's full sequence when the right operand is itself a sparse record. -/
theorem claim4 (s : Schema) (r : SparseRecord) (hwf : r.WF s) :
    ∃ t, _asnamedtuple s r = .ok t ∧
      recordEqDense s r t = .ok true ∧
      (∀ other : List PyVal, recordEqDense s r other = .ok (decide (t = other))) ∧
      (∀ (s2 : Schema) (r2 : SparseRecord), r2.WF s2 →
        ∃ t2, _asnamedtuple s2 r2 = .ok t2 ∧
          recordEqSparse s r s2 r2 = .ok (decide (t = t2))) := by
  have h := asnamedtuple_wf hwf
  refine ⟨_, h, ?_, fun other => recordEqDense_of_ok h other, ?_⟩
  · rw [recordEqDense_of_ok h]
    simp
  · intro s2 r2 hwf2
    have h2 := asnamedtuple_wf hwf2
    exact ⟨_, h2, recordEqSparse_of_ok h h2⟩

/-- Witness for claim C4 at the Scenario A record. -/
theorem claim4_witness :
    recA.WF schemaA ∧
    ∃ t, _asnamedtuple schemaA recA = .ok t ∧
      recordEqDense schemaA recA t = .ok true := by
  refine ⟨by decide, ?_⟩
  rcases claim4 schemaA recA (by decide) with ⟨t, h1, h2, -, -⟩
  exact ⟨t, h1, h2⟩

/-- Claim C5: rebuilding a record from its dictionary view (every schema field
in declaration order, absent fields carrying the sentinel) yields a record
equal to the original under the record's equality. -/
theorem claim5 (s : Schema) (hs : s.WF) (r : SparseRecord) (hwf : r.WF s) :
    ∃ d r2, _asdict s r = .ok d ∧ _make s d = .ok r2 ∧
      recordEqSparse s r s r2 = .ok true := by
  have hd := asdict_wf hwf
  set d := (List.range s.nfields).map
    (fun p => (s.fieldNames.getD p "", fullOf r p)) with hdef
  have hkeys : keysOf d = s.fieldNames := keysOf_asdict
  have hnd : (keysOf d).Nodup := by rw [hkeys]; exact hs
  have hmemd : ∀ q ∈ d, q.1 ∈ s.fieldNames := by
    intro q hq
    rw [← hkeys]
    exact List.mem_map.mpr ⟨q, hq, rfl⟩
  rcases make_ok s d (fun q hq _ => hmemd q hq) with ⟨r2, hmk⟩
  refine ⟨d, r2, hd, hmk, ?_⟩
  have ht2 := asnamedtuple_make hs hnd hmk
  have ht1 := asnamedtuple_wf hwf
  have heq : (List.range s.nfields).map
      (fun p => kwLookup d (s.fieldNames.getD p "")) =
      (List.range s.nfields).map (fullOf r) := by
    apply List.map_congr_left
    intro p hp
    exact kwLookup_asdict hs (List.mem_range.mp hp)
  rw [heq] at ht2
  rw [recordEqSparse_of_ok ht1 ht2]
  simp

/-- Witness for claim C5 at the Scenario A record. -/
theorem claim5_witness :
    schemaA.WF ∧ recA.WF schemaA ∧
    ∃ d r2, _asdict schemaA recA = .ok d ∧ _make schemaA d = .ok r2 ∧
      recordEqSparse schemaA recA schemaA r2 = .ok true :=
  ⟨by decide, by decide, claim5 schemaA (by decide) recA (by decide)⟩

/-- Claim C6: equality is one-directional: the Scenario A record equals the
dense sequence via the record's own equality, while the dense type's own
equality operator compares against the record's raw compact tuple and reports
inequality. -/
theorem claim6 :
    _make schemaA kwargsA = .ok recA ∧
    recordEqDense schemaA recA denseA = .ok true ∧
    denseEqRecord denseA recA = false :=
  ⟨rfl, rfl, rfl⟩

/-- Claim C7: replacing fields produces a new record whose full sequence
agrees with the overrides at the overridden schema positions (a sentinel
override makes the field read as the sentinel) and with the original record's
full sequence everywhere else. -/
theorem claim7 (s : Schema) (hs : s.WF) (r : SparseRecord) (hwf : r.WF s)
    (kwargs : List (String × PyVal)) (hnd : (keysOf kwargs).Nodup)
    (hmem : ∀ q ∈ kwargs, q.1 ∈ s.fieldNames) :
    ∃ r2 told tnew, _replace s r kwargs = .ok r2 ∧ r2.WF s ∧
      _asnamedtuple s r = .ok told ∧ _asnamedtuple s r2 = .ok tnew ∧
      told.length = s.nfields ∧ tnew.length = s.nfields ∧
      ∀ p : Nat, p < s.nfields →
        tnew.getD p PyVal.none =
          if s.fieldNames.getD p "" ∈ keysOf kwargs
          then kwLookup kwargs (s.fieldNames.getD p "")
          else told.getD p PyVal.none := by
  have hd := asdict_wf hwf
  set d := (List.range s.nfields).map
    (fun p => (s.fieldNames.getD p "", fullOf r p)) with hdef
  have hkeysd : keysOf d = s.fieldNames := keysOf_asdict
  set merged := updateAll d kwargs with hmdef
  have hkeysm : keysOf merged = keysOf d := by
    apply keysOf_updateAll
    intro q hq
    rw [hkeysd]
    exact hmem q hq
  have hndm : (keysOf merged).Nodup := by
    rw [hkeysm, hkeysd]
    exact hs
  have hmemm : ∀ q ∈ merged, q.1 ∈ s.fieldNames := by
    intro q hq
    rw [← hkeysd, ← hkeysm]
    exact List.mem_map.mpr ⟨q, hq, rfl⟩
  rcases make_ok s merged (fun q hq _ => hmemm q hq) with ⟨r2, hmk⟩
  have hrepl : _replace s r kwargs = .ok r2 := by
    rw [replace_of_asdict hd kwargs]
    exact hmk
  have htold := asnamedtuple_wf hwf
  have htnew := asnamedtuple_make hs hndm hmk
  refine ⟨r2, _, _, hrepl, make_wf hndm hmk, htold, htnew, ?_, ?_, ?_⟩
  · rw [List.length_map, List.length_range]
  · rw [List.length_map, List.length_range]
  · intro p hp
    have h1 : ((List.range s.nfields).map
        (fun p => kwLookup merged (s.fieldNames.getD p ""))).getD p PyVal.none
        = kwLookup merged (s.fieldNames.getD p "") := by
      rw [List.getD_eq_getElem?_getD, List.getElem?_map, List.getElem?_range hp]
      rfl
    have h2 : ((List.range s.nfields).map (fullOf r)).getD p PyVal.none
        = fullOf r p := by
      rw [List.getD_eq_getElem?_getD, List.getElem?_map, List.getElem?_range hp]
      rfl
    rw [h1, h2, kwLookup_updateAll kwargs d (s.fieldNames.getD p "") hnd]
    by_cases hin : s.fieldNames.getD p "" ∈ keysOf kwargs
    · rw [if_pos hin, if_pos hin]
    · rw [if_neg hin, if_neg hin]
      exact kwLookup_asdict hs hp

/-- Witness for claim C7: Scenario C, replacing `state` with "CA" on the
Scenario A record. -/
theorem claim7_witness :
    schemaA.WF ∧ recA.WF schemaA ∧
    (keysOf [("state", PyVal.str "CA")]).Nodup ∧
    (∀ q ∈ [("state", PyVal.str "CA")], q.1 ∈ schemaA.fieldNames) ∧
    ∃ r2 told tnew, _replace schemaA recA [("state", PyVal.str "CA")] = .ok r2 ∧
      r2.WF schemaA ∧
      _asnamedtuple schemaA recA = .ok told ∧ _asnamedtuple schemaA r2 = .ok tnew ∧
      told.length = schemaA.nfields ∧ tnew.length = schemaA.nfields ∧
      ∀ p : Nat, p < schemaA.nfields →
        tnew.getD p PyVal.none =
          if schemaA.fieldNames.getD p "" ∈ keysOf [("state", PyVal.str "CA")]
          then kwLookup [("state", PyVal.str "CA")] (schemaA.fieldNames.getD p "")
          else told.getD p PyVal.none :=
  ⟨by decide, by decide, by decide, by decide,
    claim7 schemaA (by decide) recA (by decide) [("state", PyVal.str "CA")]
      (by decide) (by decide)⟩

/-- Claim C8 counterexample: supplying the same field twice does not fail with
DuplicateFieldError (both occurrences are stored), and an unknown field name
carrying the sentinel value does not fail with UnknownFieldError (it is
skipped before name resolution). -/
theorem claim8_counterexample :
    _make schemaA [("username", PyVal.str "a"), ("username", PyVal.str "b")]
      = .ok ⟨[PyVal.str "a", PyVal.str "b"], [0, 0]⟩ ∧
    _make schemaA [("nosuchfield", PyVal.none)] = .ok ⟨[], []⟩ :=
  ⟨rfl, rfl⟩

/-- Claim C8 amended: construction either returns a record or fails with
UnknownFieldError (no partial record is observable), and it fails exactly when
some assignment with a non-sentinel value names a field outside the schema;
duplicate names are not rejected. -/
theorem claim8_amended (s : Schema) (kwargs : List (String × PyVal)) :
    ((∃ r, _make s kwargs = .ok r) ∨ _make s kwargs = .error Err.unknownField) ∧
    ∀ e : Err, _make s kwargs = .error e ↔
      (e = Err.unknownField ∧ ∃ q ∈ kwargs, q.2 ≠ PyVal.none ∧ q.1 ∉ s.fieldNames) := by
  constructor
  · cases hmk : _make s kwargs with
    | ok r => exact Or.inl ⟨r, rfl⟩
    | error e =>
      right
      have h := (make_error_iff s kwargs).mp hmk
      rw [← h.1]
  · intro e
    exact make_error_iff s kwargs

/-- Witness for claim C8 amended: a non-sentinel assignment to an unknown
field fails with UnknownFieldError. -/
theorem claim8_amended_witness :
    _make schemaA [("bogus", PyVal.str "x")] = .error Err.unknownField :=
  ((claim8_amended schemaA [("bogus", PyVal.str "x")]).2 Err.unknownField).mpr
    ⟨rfl, ("bogus", PyVal.str "x"), List.mem_cons_self _ _, by decide, by decide⟩

/-- Claim C9: defining a schema with duplicated field names fails with
ValidationError when rename mode is off; with rename mode on it succeeds,
deterministically replacing each colliding or otherwise invalid name at
position i by "_i", so ["x", "x"] becomes ["x", "_1"]. -/
theorem claim9 :
    sparsenamedtuple "Point" ["x", "x"] false = .error Err.validationError ∧
    sparsenamedtuple "Point" ["x", "x"] true = .ok ⟨["x", "_1"]⟩ ∧
    ∀ (names : List String) (i : Nat), i < names.length →
      (renamePass names 0 []).getD i "" =
        if renameBad (names.getD i "") (names.take i).reverse
        then "_" ++ toString i else names.getD i "" := by
  refine ⟨rfl, rfl, ?_⟩
  intro names i h
  rw [renamePass_getD names 0 [] i h, List.append_nil, Nat.zero_add]

/-- Witness for claim C9: the second "x" collides and is renamed "_1". -/
theorem claim9_witness :
    1 < (["x", "x"] : List String).length ∧
    (renamePass ["x", "x"] 0 []).getD 1 "" = "_1" := by
  constructor
  · decide
  · rw [claim9.2.2 ["x", "x"] 1 (by decide)]
    rfl

/-- Claim C10: two constructions from the same name-value assignments in
different orders are observably identical: same dictionary view, same full
sequence, same positional access at every index and same named access at
every field name. -/
theorem claim10 (s : Schema) (hs : s.WF) (k1 k2 : List (String × PyVal))
    (hperm : k1.Perm k2) (hnd : (keysOf k1).Nodup)
    (hmem : ∀ q ∈ k1, q.1 ∈ s.fieldNames) :
    ∃ r1 r2, _make s k1 = .ok r1 ∧ _make s k2 = .ok r2 ∧
      _asdict s r1 = _asdict s r2 ∧
      _asnamedtuple s r1 = _asnamedtuple s r2 ∧
      (∀ n : Int, getItem s r1 n = getItem s r2 n) ∧
      (∀ name : String, getField s r1 name = getField s r2 name) := by
  have hperm2 := hperm.map (fun q : String × PyVal => q.1)
  have hnd2 : (keysOf k2).Nodup := hperm2.nodup_iff.mp hnd
  have hmem2 : ∀ q ∈ k2, q.1 ∈ s.fieldNames := fun q hq => hmem q (hperm.mem_iff.mpr hq)
  rcases make_ok s k1 (fun q hq _ => hmem q hq) with ⟨r1, hmk1⟩
  rcases make_ok s k2 (fun q hq _ => hmem2 q hq) with ⟨r2, hmk2⟩
  have hkw := kwLookup_perm hperm hnd
  have hitem : ∀ n : Int, getItem s r1 n = getItem s r2 n := by
    intro n
    have hlook : ∀ m : Int, 0 ≤ m → m < (s.nfields : Int) →
        lookupRaw r1 m = lookupRaw r2 m := by
      intro m hm0 hm1
      have hmp : ((m.toNat : Nat) : Int) = m := Int.toNat_of_nonneg hm0
      have hp : m.toNat < s.nfields := by omega
      rw [← hmp, lookupRaw_makeLoop s hs k1 hnd (make_components s hmk1) m.toNat hp,
        lookupRaw_makeLoop s hs k2 hnd2 (make_components s hmk2) m.toNat hp, hkw]
    by_cases hneg : n < 0
    · rw [getItem_neg s r1 hneg, getItem_neg s r2 hneg]
      by_cases hres : (s.nfields : Int) + n < 0
      · rw [lookupRaw_neg r1 hres, lookupRaw_neg r2 hres]
      · exact hlook _ (by omega) (by omega)
    · by_cases hbig : (s.nfields : Int) ≤ n
      · rw [getItem_too_big s r1 hbig, getItem_too_big s r2 hbig]
      · rw [getItem_in_range s r1 (by omega) (by omega),
          getItem_in_range s r2 (by omega) (by omega)]
        exact hlook n (by omega) (by omega)
  refine ⟨r1, r2, hmk1, hmk2, ?_, ?_, hitem, ?_⟩
  · rw [asdict_make hs hnd hmk1, asdict_make hs hnd2 hmk2]
    congr 1
    apply List.map_congr_left
    intro p hp
    rw [hkw]
  · rw [asnamedtuple_make hs hnd hmk1, asnamedtuple_make hs hnd2 hmk2]
    congr 1
    apply List.map_congr_left
    intro p hp
    rw [hkw]
  · intro name
    unfold getField
    cases h : idxOf? name s.fieldNames with
    | none => rfl
    | some i => exact hitem (i : Int)

/-- Witness for claim C10: the Scenario A assignments in both orders build
observably equal records. -/
theorem claim10_witness :
    schemaA.WF ∧
    kwargsA.Perm [("state", PyVal.str "NY"), ("username", PyVal.str "jdoe")] ∧
    ∃ r1 r2, _make schemaA kwargsA = .ok r1 ∧
      _make schemaA [("state", PyVal.str "NY"), ("username", PyVal.str "jdoe")]
        = .ok r2 ∧
      _asnamedtuple schemaA r1 = _asnamedtuple schemaA r2 := by
  have hperm : kwargsA.Perm [("state", PyVal.str "NY"), ("username", PyVal.str "jdoe")] :=
    List.Perm.swap _ _ _
  refine ⟨by decide, hperm, ?_⟩
  rcases claim10 schemaA (by decide) kwargsA _ hperm (by decide) (by decide) with
    ⟨r1, r2, h1, h2, -, h4, -, -⟩
  exact ⟨r1, r2, h1, h2, h4⟩
